import Mathlib

/-!
# datmo: the per-track estimator of `src/cluster.cpp`

A shallow embedding of the numerical core of `Cluster`: the centroid
(`calcMean`), the finite-difference velocity (`calcRelativeVelocity`), the
per-scan `update`, the Ramer-Douglas-Peucker simplification
(`perpendicularDistance`, `ramerDouglasPeucker`) and the shape classification
performed inside `getLineVisualisationMessage`.

Conventions of the embedding.

* `double` is an arbitrary linearly ordered field `α` (exact arithmetic).
  `pow(x, 2.0)` is `x ^ 2`; `pow(x, 0.5)` is a square-root function `sqrt`
  that the definitions take as an argument, so that they stay executable.
  Whenever a theorem needs the square root to be the real one it assumes
  `0 ≤ sqrt x` and `sqrt x * sqrt x = x` for `0 ≤ x`; `Real.sqrt` on `ℝ`
  satisfies both.
* The decimal literals `0.1` and `0.8` are the rationals `1 / 10` and
  `8 / 10`.
* Where the rounding of `double` decides a property (the centroid), the
  computation is modelled a second time on `Double`, the IEEE 754 binary64
  numbers with round to nearest, ties to even (`roundDouble`,
  `calcMeanDouble`).
* `size_t` / `unsigned int` are `Nat`; `vector<T>` is `List T`;
  `pair<double,double>` is `α × α` (`first`, `second` are `.1`, `.2`).
* The recursion of `ramerDouglasPeucker` is driven by a fuel argument that
  bounds the recursion depth; running out of fuel is a separate outcome.
* The Kalman filter class is not part of `cluster.cpp`; its operations are a
  parameter (`KalmanOps`). Display-only members (`r`, `g`, `b`, the markers,
  the trajectory) are not modelled.
-/

namespace Datmo

/-- The C++ `typedef std::pair<double, double> Point`. -/
abbrev Point (α : Type) := α × α

/-- The C++ `typedef std::vector<Point> pointList`. -/
abbrev pointList (α : Type) := List (Point α)

/-- How a call of a function that may throw or recurse forever ends. -/
inductive Outcome (β : Type) where
  /-- Normal return with a value. -/
  | ok (value : β)
  /-- A `std::runtime_error` with the given message was thrown. -/
  | runtimeError (what : String)
  /-- The call indexes a vector out of bounds (undefined behaviour in C++). -/
  | undefinedBehaviour
  /-- The recursion is deeper than the fuel that was supplied. -/
  | outOfFuel

section Simplifier

variable {α : Type} [LinearOrderedField α]

/-- The function `Cluster::perpendicularDistance` (cluster.cpp 386-416): the
distance of `pt` from the line through `lineStart` and `lineEnd`. -/
def perpendicularDistance (sqrt : α → α) (pt lineStart lineEnd : Point α) : α :=
  let dx := lineEnd.1 - lineStart.1
  let dy := lineEnd.2 - lineStart.2
  -- Normalise
  let mag := sqrt (dx ^ 2 + dy ^ 2)
  let dx := if mag > 0 then dx / mag else dx
  let dy := if mag > 0 then dy / mag else dy
  let pvx := pt.1 - lineStart.1
  let pvy := pt.2 - lineStart.2
  -- Get dot product (project pv onto normalized direction)
  let pvdot := dx * pvx + dy * pvy
  -- Scale line direction vector
  let dsx := pvdot * dx
  let dsy := pvdot * dy
  -- Subtract this from pv
  let ax := pvx - dsx
  let ay := pvy - dsy
  sqrt (ax ^ 2 + ay ^ 2)

/-- The body of the search loop of `ramerDouglasPeucker` (cluster.cpp
430-435) for the loop index `i`; `d i` is the distance of `pointList[i]` and
the state is `(dmax, index)`. -/
def maxStep (d : Nat → α) (st : α × Nat) (i : Nat) : α × Nat :=
  if d i > st.1 then (d i, i) else st

/-- The search loop `for (i = 1; i < end_; i++)` started from `dmax = 0.0`,
`index = 0` (cluster.cpp 425-436). -/
def maxLoop (d : Nat → α) (end_ : Nat) : α × Nat :=
  (List.range' 1 (end_ - 1)).foldl (maxStep d) (0, 0)

/-- The pair `(dmax, index)` that `ramerDouglasPeucker` computes for
`pointList` (cluster.cpp 425-436). -/
def findMax (sqrt : α → α) (pointList : List (Point α)) : α × Nat :=
  let end_ := pointList.length - 1
  maxLoop (fun i => perpendicularDistance sqrt (pointList.getD i 0)
    (pointList.getD 0 0) (pointList.getD end_ 0)) end_

/-- The function `Cluster::ramerDouglasPeucker` (cluster.cpp 418-462); the
result is the value left in `out`. On an empty `pointList` the C++ code computes
`end = size_t(0) - 1` and indexes out of bounds. -/
def ramerDouglasPeucker (sqrt : α → α) :
    Nat → List (Point α) → α → Outcome (List (Point α))
  | 0, _, _ => .outOfFuel
  | fuel + 1, pointList, epsilon =>
    if pointList.length = 0 then .undefinedBehaviour
    else
      let end_ := pointList.length - 1
      let dmax := (findMax sqrt pointList).1
      let index := (findMax sqrt pointList).2
      -- If max distance is greater than epsilon, recursively simplify
      if dmax > epsilon then
        let firstLine := pointList.take (index + 1)
        let lastLine := pointList.drop index
        match ramerDouglasPeucker sqrt fuel firstLine epsilon with
        | .ok recResults1 =>
          match ramerDouglasPeucker sqrt fuel lastLine epsilon with
          | .ok recResults2 =>
            -- Build the result list
            let out := recResults1.dropLast ++ recResults2
            if out.length < 2 then .runtimeError "Problem assembling output"
            else .ok out
          | .runtimeError what => .runtimeError what
          | .undefinedBehaviour => .undefinedBehaviour
          | .outOfFuel => .outOfFuel
        | .runtimeError what => .runtimeError what
        | .undefinedBehaviour => .undefinedBehaviour
        | .outOfFuel => .outOfFuel
      else
        -- Just return start and end points
        .ok [pointList.getD 0 0, pointList.getD end_ 0]

/-- The relation between an input `P` of the simplifier and its output `Q`:
`Q` has at least two points, starts and ends like `P`, is no longer than a
`P` of two or more points, and its interior points are interior points of `P`. -/
structure Keeps (P Q : List (Point α)) : Prop where
  two_le : 2 ≤ Q.length
  first : Q.getD 0 0 = P.getD 0 0
  last : Q.getD (Q.length - 1) 0 = P.getD (P.length - 1) 0
  len : 2 ≤ P.length → Q.length ≤ P.length
  interior : ∀ i, 1 ≤ i → i + 1 < Q.length →
    ∃ k, 1 ≤ k ∧ k + 1 < P.length ∧ Q.getD i 0 = P.getD k 0

/-- The distance of `P[i]` from the chord of `P`, as a function of `i`. -/
def chordDist (sqrt : α → α) (P : List (Point α)) (i : Nat) : α :=
  perpendicularDistance sqrt (P.getD i 0) (P.getD 0 0) (P.getD (P.length - 1) 0)

/-- The two laws of an exact square root on the non-negative numbers. -/
def IsSqrt (sqrt : α → α) : Prop :=
  ∀ x, 0 ≤ x → 0 ≤ sqrt x ∧ sqrt x * sqrt x = x

end Simplifier

section Track

variable {α : Type} [LinearOrderedField α]

/-- The operations of the external `KalmanFilter` class that `Cluster` calls,
over an abstract filter state `κ`. -/
structure KalmanOps (α κ : Type) where
  /-- The constructor `KalmanFilter(dt, A, C, Q, R, P)`; the matrices are fixed
  by `dt`. -/
  create : α → κ
  /-- The call `kf.init(t0, x0, id)`. -/
  init : κ → α → α × α × α × α → Nat → κ
  /-- The call `kf.update(y, dt)`. -/
  update : κ → α × α × α × α → α → κ

/-- The members of `Cluster` that the estimator reads or writes. -/
structure Cluster (α κ : Type) where
  id : Nat
  moving : Bool
  dt : α
  mean_values : Point α
  previous_mean_values : Point α
  vx : α
  vy : α
  clusters : List (pointList α)
  kf : κ

/-- The accessor `meanX()`. -/
def meanX {κ : Type} (s : Cluster α κ) : α := s.mean_values.1

/-- The accessor `meanY()`. -/
def meanY {κ : Type} (s : Cluster α κ) : α := s.mean_values.2

/-- The method `Cluster::calcMean` (cluster.cpp 359-371), in the exact
arithmetic of `α`; `calcMeanDouble` is the same computation with the rounding
of `double`. -/
def calcMean {κ : Type} (s : Cluster α κ) (c : pointList α) : Cluster α κ :=
  let sums := (List.range c.length).foldl
    (fun (acc : α × α) i => (acc.1 + (c.getD i 0).1, acc.2 + (c.getD i 0).2)) (0, 0)
  let sum_x := sums.1
  let sum_y := sums.2
  { s with mean_values := (sum_x / (c.length : α), sum_y / (c.length : α)) }

/-- The method `Cluster::calcRelativeVelocity` (cluster.cpp 373-379). -/
def calcRelativeVelocity {κ : Type} (s : Cluster α κ) : Cluster α κ :=
  let s1 := { s with vx := (s.mean_values.1 - s.previous_mean_values.2) / s.dt }
  { s1 with vy := (s1.mean_values.1 - s1.previous_mean_values.2) / s1.dt }

/-- The constructor `Cluster::Cluster(id, new_points, dt)` (cluster.cpp 11-54).
The constructor assigns neither `this->dt`, `vx`, `vy` nor
`previous_mean_values` (its parameter `dt` shadows the member); the values
these members hold are those of `raw`. The vector `clusters` starts empty. -/
def Cluster.create {κ : Type} (K : KalmanOps α κ) (raw : Cluster α κ) (id : Nat)
    (new_points : pointList α) (dt : α) : Cluster α κ :=
  let s1 := { raw with id := id, moving := true }
  let s2 := { s1 with kf := K.create dt }
  let s3 := { s2 with clusters := [new_points] }
  let s4 := calcMean s3 new_points
  let x0 : α × α × α × α := (meanX s4, meanY s4, 0, 0)
  { s4 with kf := K.init s4.kf 0 x0 s4.id }

/-- The method `Cluster::update` (cluster.cpp 56-70). -/
def update {κ : Type} (K : KalmanOps α κ) (s : Cluster α κ) (new_points : pointList α)
    (dt_in : α) : Cluster α κ :=
  let s1 := { s with previous_mean_values := s.mean_values }
  let s2 := { s1 with clusters := s1.clusters ++ [new_points] }
  let s3 := calcMean s2 new_points
  let s4 := { s3 with dt := dt_in }
  let s5 := calcRelativeVelocity s4
  -- Update Kalman Filter
  let y : α × α × α × α := (meanX s5, meanY s5, s5.vx, s5.vy)
  { s5 with kf := K.update s5.kf y s5.dt }

/-- The loop body of cluster.cpp 308-309: the length `l` of the segment from
vertex `k` to vertex `k + 1`, and `moving = false` when `l > 0.8`. -/
def segmentStep (sqrt : α → α) (pointListOut : List (Point α)) (moving : Bool) (k : Nat) :
    Bool :=
  let l := sqrt (((pointListOut.getD (k + 1) 0).1 - (pointListOut.getD k 0).1) ^ 2
    + ((pointListOut.getD (k + 1) 0).2 - (pointListOut.getD k 0).2) ^ 2)
  if l > 8 / 10 then false else moving

/-- The classification of cluster.cpp 305-311 applied to the simplified
polyline: the new value of `moving`. -/
def classify (sqrt : α → α) (pointListOut : List (Point α)) (moving : Bool) : Bool :=
  let moving := if pointListOut.length > 3 then false else moving
  if pointListOut.length = 1 then
    (List.range (pointListOut.length - 1)).foldl (segmentStep sqrt pointListOut) moving
  else moving

/-- The method `Cluster::getLineVisualisationMessage` (cluster.cpp 266-314):
the new track state and the vertices put into `line_msg.points`. -/
def getLineVisualisationMessage {κ : Type} (sqrt : α → α) (fuel : Nat) (s : Cluster α κ) :
    Outcome (Cluster α κ × List (Point α)) :=
  if !s.moving then .ok (s, [])
  else
    match s.clusters.getLast? with
    | none => .undefinedBehaviour
    | some last_cluster =>
      match ramerDouglasPeucker sqrt fuel last_cluster (1 / 10) with
      | .ok pointListOut =>
        .ok ({ s with moving := classify sqrt pointListOut s.moving }, pointListOut)
      | .runtimeError what => .runtimeError what
      | .undefinedBehaviour => .undefinedBehaviour
      | .outOfFuel => .outOfFuel

/-- A Kalman filter without state, for concrete tracks. -/
def noKalman (α : Type) : KalmanOps α Unit :=
  { create := fun _ => (), init := fun _ _ _ _ => (), update := fun _ _ _ => () }

/-- The members of a track before its constructor has run: every number is
`0`, the history is empty. -/
def rawTrack (α : Type) [LinearOrderedField α] : Cluster α Unit :=
  { id := 0, moving := false, dt := 0, mean_values := (0, 0), previous_mean_values := (0, 0),
    vx := 0, vy := 0, clusters := [], kf := () }

/-- A track created from the cluster `[(0, 0)]` and updated once with the
cluster `[(1, 1)]` and `dt = 1`: its centroid is `(1, 1)`, its raw velocity
`(1, 1)`. -/
def trackA (α : Type) [LinearOrderedField α] : Cluster α Unit :=
  update (noKalman α) (Cluster.create (noKalman α) (rawTrack α) 0 [(0, 0)] 1) [(1, 1)] 1

/-- A track created from the cluster `[(0, 1)]`: its centroid is `(0, 1)`. -/
def trackB (α : Type) [LinearOrderedField α] : Cluster α Unit :=
  Cluster.create (noKalman α) (rawTrack α) 0 [(0, 1)] 1

/-- A track created from the cluster `[(0, 0), (1, 0)]` with `dt = 0.1`. -/
def trackC (α : Type) [LinearOrderedField α] : Cluster α Unit :=
  Cluster.create (noKalman α) (rawTrack α) 0 [(0, 0), (1, 0)] (1 / 10)

/-- A track created from a five-point cluster and since classified as
stationary. -/
def trackD (α : Type) [LinearOrderedField α] : Cluster α Unit :=
  { Cluster.create (noKalman α) (rawTrack α) 0 [(0, 0), (1, 0), (1, 1), (0, 1), (0, 2)]
      (1 / 10) with moving := false }

end Track

section DoubleArithmetic

/-- A value of the C++ type `double` (IEEE 754 binary64): a finite number,
given by the rational it denotes, or a non-finite one (an infinity or a
NaN). The sign of zero is not recorded. -/
inductive Double where
  /-- A finite `double`, as the rational number it denotes. -/
  | finite (value : ℚ)
  /-- An infinity or a NaN. -/
  | nonFinite
deriving DecidableEq

/-- The exponent `⌊log₂ (a / d)⌋` of a positive rational `a / d`: the
difference of the bit lengths, or one less. -/
def floorLog2 (a d : Nat) : Int :=
  let l : Int := (Nat.log2 a : Int) - (Nat.log2 d : Int)
  if d * 2 ^ l.toNat ≤ a * 2 ^ (-l).toNat then l else l - 1

/-- The integer nearest to `num / den`, ties going to the even one. -/
def roundNearestEven (num den : Nat) : Nat :=
  let q := num / den
  let r := num % den
  if 2 * r < den then q else if den < 2 * r then q + 1 else if q % 2 = 0 then q else q + 1

/-- The `double` that an arithmetic operation with exact result `x` returns
(round to nearest, ties to even): `x` is scaled to a 53-bit significand `m`
with exponent `e` no smaller than that of the subnormal numbers, `m` is
rounded, and the result is non-finite when `m * 2 ^ e` reaches `2 ^ 1024`. -/
def roundDouble (x : ℚ) : Double :=
  if x = 0 then .finite 0
  else
    let a := x.num.natAbs
    let d := x.den
    let e := max (floorLog2 a d) (-1022) - 52
    let m := roundNearestEven (a * 2 ^ (-e).toNat) (d * 2 ^ e.toNat)
    if 971 < e ∨ (e = 971 ∧ 2 ^ 53 ≤ m) then .nonFinite
    else .finite ((if x < 0 then -1 else 1) * (m : ℚ) * 2 ^ e)

/-- The `double` addition `a + b`. -/
def Double.add : Double → Double → Double
  | .finite a, .finite b => roundDouble (a + b)
  | _, _ => .nonFinite

/-- The `double` division `a / n` by an unsigned integer `n`, which is
converted to `double` first; division by zero gives an infinity or a NaN. -/
def Double.divSize (a : Double) (n : Nat) : Double :=
  match a, roundDouble (n : ℚ) with
  | .finite a, .finite b => if b = 0 then .nonFinite else roundDouble (a / b)
  | _, _ => .nonFinite

/-- The pair that `Cluster::calcMean` (cluster.cpp 359-371) stores in
`mean_values`, computed in `double` arithmetic. -/
def calcMeanDouble (c : List (Double × Double)) : Double × Double :=
  let sums := (List.range c.length).foldl
    (fun (acc : Double × Double) i =>
      (acc.1.add (c.getD i (.finite 0, .finite 0)).1,
        acc.2.add (c.getD i (.finite 0, .finite 0)).2)) (.finite 0, .finite 0)
  let sum_x := sums.1
  let sum_y := sums.2
  (sum_x.divSize c.length, sum_y.divSize c.length)

/-- A cluster of finite points as a list of pairs of `double`. -/
def finitePoints (c : List (ℚ × ℚ)) : List (Double × Double) :=
  c.map (fun p => (.finite p.1, .finite p.2))

/-- The rational `x` is a `double`: rounding leaves it unchanged. -/
def IsDouble (x : ℚ) : Prop := roundDouble x = .finite x

end DoubleArithmetic

section Proofs

variable {α : Type} [LinearOrderedField α]

/-- What the search loop has established after running over `s, …, s + n - 1`
from the state `(m, idx)`. -/
theorem foldl_maxStep_spec (d : Nat → α) (n : Nat) : ∀ (s : Nat) (m : α) (idx : Nat),
    let r := (List.range' s n).foldl (maxStep d) (m, idx)
    (∀ i, s ≤ i → i < s + n → d i ≤ r.1) ∧ m ≤ r.1 ∧
    (r = (m, idx) ∨
      (s ≤ r.2 ∧ r.2 < s + n ∧ d r.2 = r.1 ∧ m < r.1 ∧ ∀ i, s ≤ i → i < r.2 → d i < r.1)) := by
  induction n with
  | zero =>
    intro s m idx
    simp
    intro i h1 h2
    omega
  | succ n ih =>
    intro s m idx
    simp only [List.range'_succ, List.foldl_cons]
    by_cases hlt : d s > m
    · have hst : maxStep d (m, idx) s = (d s, s) := by simp [maxStep, hlt]
      rw [hst]
      obtain ⟨h1, h2, h3⟩ := ih (s + 1) (d s) s
      refine ⟨?_, le_trans (le_of_lt hlt) h2, ?_⟩
      · intro i hi1 hi2
        rcases Nat.eq_or_lt_of_le hi1 with h | h
        · subst h; exact h2
        · exact h1 i h (by omega)
      · right
        rcases h3 with h3 | ⟨a, b, c, e, f⟩
        · rw [h3]
          refine ⟨le_refl _, by omega, rfl, hlt, ?_⟩
          intro i hi1 hi2
          omega
        · refine ⟨by omega, by omega, c, lt_trans hlt e, ?_⟩
          intro i hi1 hi2
          rcases Nat.eq_or_lt_of_le hi1 with h | h
          · subst h; exact e
          · exact f i h hi2
    · have hst : maxStep d (m, idx) s = (m, idx) := by simp [maxStep, hlt]
      rw [hst]
      obtain ⟨h1, h2, h3⟩ := ih (s + 1) m idx
      have hds : d s ≤ m := not_lt.mp hlt
      refine ⟨?_, h2, ?_⟩
      · intro i hi1 hi2
        rcases Nat.eq_or_lt_of_le hi1 with h | h
        · subst h; exact le_trans hds h2
        · exact h1 i h (by omega)
      · rcases h3 with h3 | ⟨a, b, c, e, f⟩
        · left; exact h3
        · right
          refine ⟨by omega, by omega, c, e, ?_⟩
          intro i hi1 hi2
          rcases Nat.eq_or_lt_of_le hi1 with h | h
          · subst h; exact lt_of_le_of_lt hds e
          · exact f i h hi2

/-- The result of the search loop: every interior distance is at most `dmax`,
and either nothing exceeded `0` (`dmax = 0`, `index = 0`) or `index` is the
first interior position whose distance is the (positive) maximum. -/
theorem maxLoop_spec (d : Nat → α) (e : Nat) :
    (∀ i, 1 ≤ i → i < e → d i ≤ (maxLoop d e).1) ∧ 0 ≤ (maxLoop d e).1 ∧
    (maxLoop d e = (0, 0) ∨
      (1 ≤ (maxLoop d e).2 ∧ (maxLoop d e).2 < e ∧ d (maxLoop d e).2 = (maxLoop d e).1 ∧
        0 < (maxLoop d e).1 ∧ ∀ i, 1 ≤ i → i < (maxLoop d e).2 → d i < (maxLoop d e).1)) := by
  obtain ⟨h1, h2, h3⟩ := foldl_maxStep_spec d (e - 1) 1 0 0
  unfold maxLoop
  refine ⟨fun i hi1 hi2 => h1 i hi1 (by omega), h2, ?_⟩
  rcases h3 with h3 | ⟨a, b, c, e', f⟩
  · left; exact h3
  · right; exact ⟨a, by omega, c, e', f⟩

/-- The search loop is determined by its specification. -/
theorem maxLoop_eq (d : Nat → α) (e j : Nat) (hj1 : 1 ≤ j) (hj2 : j < e) (hpos : 0 < d j)
    (hmax : ∀ i, 1 ≤ i → i < e → d i ≤ d j) (hfirst : ∀ i, 1 ≤ i → i < j → d i < d j) :
    maxLoop d e = (d j, j) := by
  obtain ⟨h1, h2, h3⟩ := maxLoop_spec d e
  rcases h3 with h3 | ⟨a, b, c, e', f⟩
  · have := h1 j hj1 hj2
    rw [h3] at this
    exact absurd this (not_le.mpr hpos)
  · have hle1 : d j ≤ (maxLoop d e).1 := h1 j hj1 hj2
    have hle2 : (maxLoop d e).1 ≤ d j := by rw [← c]; exact hmax _ a b
    have heq : (maxLoop d e).1 = d j := le_antisymm hle2 hle1
    have hidx : (maxLoop d e).2 = j := by
      rcases Nat.lt_trichotomy (maxLoop d e).2 j with h | h | h
      · have := hfirst _ a h
        rw [c, heq] at this
        exact absurd this (lt_irrefl _)
      · exact h
      · have := f j hj1 h
        rw [heq] at this
        exact absurd this (lt_irrefl _)
    exact Prod.ext heq hidx

theorem getD_take_lt {β : Type} (l : List β) (d : β) (i n : Nat) (h : i < n) :
    (l.take n).getD i d = l.getD i d := by
  simp [List.getElem?_take_of_lt h]

theorem getD_drop_add {β : Type} (l : List β) (d : β) (i n : Nat) :
    (l.drop n).getD i d = l.getD (n + i) d := by
  simp

theorem getD_dropLast_lt {β : Type} (l : List β) (d : β) (i : Nat) (h : i + 1 < l.length) :
    l.dropLast.getD i d = l.getD i d := by
  rw [List.dropLast_eq_take]
  exact getD_take_lt l d i _ (by omega)

/-- A list of at least two elements is its `dropLast` followed by its last
element. -/
theorem dropLast_append_last {β : Type} (l : List β) (d : β) (h : 1 ≤ l.length) :
    l.dropLast ++ [l.getD (l.length - 1) d] = l := by
  have hne : l ≠ [] := by
    intro h0; subst h0; simp at h
  have := List.dropLast_append_getLast hne
  rw [List.getLast_eq_getElem] at this
  rw [List.getD_eq_getElem l d (by omega)]
  exact this

/-- A non-empty list is its first element followed by its tail. -/
theorem head_cons_tail {β : Type} (l : List β) (d : β) (h : 1 ≤ l.length) :
    l.getD 0 d :: l.tail = l := by
  cases l with
  | nil => simp at h
  | cons a t => simp

theorem findMax_eq (sqrt : α → α) (P : List (Point α)) :
    findMax sqrt P = maxLoop (chordDist sqrt P) (P.length - 1) := rfl

/-- When the loop ends with `dmax` above a non-negative `epsilon`, `index` is
an interior position. -/
theorem findMax_index_bounds (sqrt : α → α) (P : List (Point α)) (ε : α) (hε : 0 ≤ ε)
    (hd : (findMax sqrt P).1 > ε) :
    1 ≤ (findMax sqrt P).2 ∧ (findMax sqrt P).2 + 1 < P.length := by
  rw [findMax_eq] at hd ⊢
  obtain ⟨-, -, h3⟩ := maxLoop_spec (chordDist sqrt P) (P.length - 1)
  rcases h3 with h3 | ⟨a, b, -⟩
  · simp only [h3] at hd
    exact absurd (lt_of_le_of_lt hε hd) (lt_irrefl _)
  · exact ⟨a, by omega⟩

/-- The two ways a call with fuel left and a non-empty input can return
normally. -/
theorem rdp_ok_cases (sqrt : α → α) (n : Nat) (P Q : List (Point α)) (ε : α) (hP : P ≠ [])
    (h : ramerDouglasPeucker sqrt (n + 1) P ε = .ok Q) :
    (¬ (findMax sqrt P).1 > ε ∧ Q = [P.getD 0 0, P.getD (P.length - 1) 0]) ∨
    ((findMax sqrt P).1 > ε ∧ ∃ Q1 Q2,
      ramerDouglasPeucker sqrt n (P.take ((findMax sqrt P).2 + 1)) ε = .ok Q1 ∧
      ramerDouglasPeucker sqrt n (P.drop (findMax sqrt P).2) ε = .ok Q2 ∧
      Q = Q1.dropLast ++ Q2 ∧ 2 ≤ Q.length) := by
  have hlen : P.length ≠ 0 := by
    intro h0; exact hP (List.length_eq_zero.mp h0)
  simp only [ramerDouglasPeucker, hlen, if_false] at h
  by_cases hd : (findMax sqrt P).1 > ε
  · right
    refine ⟨hd, ?_⟩
    simp only [hd, if_true] at h
    split at h
    · rename_i Q1 h1
      split at h
      · rename_i Q2 h2
        split at h
        · cases h
        · rename_i hlen2
          injection h with h
          subst h
          exact ⟨Q1, Q2, h1, h2, rfl, by omega⟩
      all_goals cases h
    all_goals cases h
  · left
    simp only [hd, if_false] at h
    injection h with h
    exact ⟨hd, h.symm⟩

/-- Joining the simplified halves of `P`, split at an interior position
`idx`, gives a list related to `P` by `Keeps`. -/
theorem keeps_join (P Q1 Q2 : List (Point α)) (idx : Nat) (h1 : 1 ≤ idx)
    (h2 : idx + 1 < P.length) (k1 : Keeps (P.take (idx + 1)) Q1)
    (k2 : Keeps (P.drop idx) Q2) : Keeps P (Q1.dropLast ++ Q2) := by
  have hl1 : (P.take (idx + 1)).length = idx + 1 := by
    rw [List.length_take]; omega
  have hl2 : (P.drop idx).length = P.length - idx := by
    rw [List.length_drop]
  have hq1 := k1.two_le
  have hq2 := k2.two_le
  have hlen : (Q1.dropLast ++ Q2).length = Q1.length - 1 + Q2.length := by
    rw [List.length_append, List.length_dropLast]
  have hdl : Q1.dropLast.length = Q1.length - 1 := List.length_dropLast _
  refine ⟨by omega, ?_, ?_, ?_, ?_⟩
  · rw [List.getD_append _ _ _ _ (by omega), getD_dropLast_lt _ _ _ (by omega), k1.first,
      getD_take_lt _ _ _ _ (by omega)]
  · rw [List.getD_append_right _ _ _ _ (by omega), hlen, hdl]
    have : Q1.length - 1 + Q2.length - 1 - (Q1.length - 1) = Q2.length - 1 := by omega
    rw [this, k2.last, getD_drop_add, hl2]
    congr 1
    omega
  · intro _
    have a := k1.len (by omega)
    have b := k2.len (by omega)
    omega
  · intro i hi1 hi2
    rw [hlen] at hi2
    rcases Nat.lt_trichotomy i (Q1.length - 1) with h | h | h
    · obtain ⟨k, hk1, hk2, hk3⟩ := k1.interior i hi1 (by omega)
      refine ⟨k, hk1, by omega, ?_⟩
      rw [List.getD_append _ _ _ _ (by omega), getD_dropLast_lt _ _ _ (by omega), hk3,
        getD_take_lt _ _ _ _ (by omega)]
    · refine ⟨idx, h1, h2, ?_⟩
      rw [List.getD_append_right _ _ _ _ (by omega), hdl, h, Nat.sub_self, k2.first,
        getD_drop_add]
      rfl
    · obtain ⟨k, hk1, hk2, hk3⟩ := k2.interior (i - (Q1.length - 1)) (by omega) (by omega)
      refine ⟨idx + k, by omega, by omega, ?_⟩
      rw [List.getD_append_right _ _ _ _ (by omega), hdl, hk3, getD_drop_add]

/-- Partial correctness of the simplifier: a normal return on a non-empty
input is related to the input by `Keeps`. -/
theorem rdp_keeps (sqrt : α → α) (ε : α) (hε : 0 ≤ ε) : ∀ (n : Nat) (P Q : List (Point α)),
    P ≠ [] → ramerDouglasPeucker sqrt n P ε = .ok Q → Keeps P Q := by
  intro n
  induction n with
  | zero =>
    intro P Q _ h
    simp [ramerDouglasPeucker] at h
  | succ n ih =>
    intro P Q hP h
    have hPl : 1 ≤ P.length := List.length_pos.mpr hP
    rcases rdp_ok_cases sqrt n P Q ε hP h with ⟨-, hQ⟩ | ⟨hd, Q1, Q2, r1, r2, hQ, -⟩
    · subst hQ
      refine ⟨by simp, by simp, by simp, ?_, ?_⟩
      · intro h2; simpa using h2
      · intro i hi1 hi2
        simp at hi2
        omega
    · obtain ⟨b1, b2⟩ := findMax_index_bounds sqrt P ε hε hd
      have ne1 : P.take ((findMax sqrt P).2 + 1) ≠ [] := by
        intro h0
        have := congrArg List.length h0
        simp only [List.length_take, List.length_nil] at this
        omega
      have ne2 : P.drop (findMax sqrt P).2 ≠ [] := by
        intro h0
        have := congrArg List.length h0
        simp only [List.length_drop, List.length_nil] at this
        omega
      subst hQ
      exact keeps_join P Q1 Q2 _ b1 b2 (ih _ _ ne1 r1) (ih _ _ ne2 r2)

/-- Totality of the simplifier: on a non-empty input, with a non-negative
`epsilon` and fuel at least the number of points, the call returns normally. -/
theorem rdp_total (sqrt : α → α) (ε : α) (hε : 0 ≤ ε) : ∀ (n : Nat) (P : List (Point α)),
    P ≠ [] → P.length ≤ n → ∃ Q, ramerDouglasPeucker sqrt n P ε = .ok Q := by
  intro n
  induction n with
  | zero =>
    intro P hP hn
    exact absurd (List.length_eq_zero.mp (Nat.le_zero.mp hn)) hP
  | succ n ih =>
    intro P hP hn
    have hlen : P.length ≠ 0 := by
      intro h0; exact hP (List.length_eq_zero.mp h0)
    by_cases hd : (findMax sqrt P).1 > ε
    · obtain ⟨b1, b2⟩ := findMax_index_bounds sqrt P ε hε hd
      have ne1 : P.take ((findMax sqrt P).2 + 1) ≠ [] := by
        intro h0
        have := congrArg List.length h0
        simp only [List.length_take, List.length_nil] at this
        omega
      have ne2 : P.drop (findMax sqrt P).2 ≠ [] := by
        intro h0
        have := congrArg List.length h0
        simp only [List.length_drop, List.length_nil] at this
        omega
      obtain ⟨Q1, r1⟩ := ih _ ne1 (by rw [List.length_take]; omega)
      obtain ⟨Q2, r2⟩ := ih _ ne2 (by rw [List.length_drop]; omega)
      have k1 := rdp_keeps sqrt ε hε _ _ _ ne1 r1
      have k2 := rdp_keeps sqrt ε hε _ _ _ ne2 r2
      have hout : ¬ (Q1.dropLast ++ Q2).length < 2 := by
        rw [List.length_append]
        have := k2.two_le
        omega
      refine ⟨Q1.dropLast ++ Q2, ?_⟩
      simp only [ramerDouglasPeucker, hlen, if_false, hd, if_true, r1, r2, hout]
    · refine ⟨[P.getD 0 0, P.getD (P.length - 1) 0], ?_⟩
      simp only [ramerDouglasPeucker, hlen, if_false, hd]

/-- Splitting a joined list at the junction gives back the two halves. -/
theorem join_take_drop {β : Type} (d : β) (Q1 Q2 : List β) (h1 : 1 ≤ Q1.length)
    (h2 : 1 ≤ Q2.length) (hj : Q1.getD (Q1.length - 1) d = Q2.getD 0 d) :
    (Q1.dropLast ++ Q2).take (Q1.length - 1 + 1) = Q1 ∧
    (Q1.dropLast ++ Q2).drop (Q1.length - 1) = Q2 := by
  have hdl : Q1.dropLast.length = Q1.length - 1 := List.length_dropLast _
  constructor
  · rw [← hdl, List.take_append, ← head_cons_tail Q2 d h2, ← hj]
    simp only [List.take_succ_cons, List.take_zero]
    exact dropLast_append_last Q1 d h1
  · exact List.drop_left' hdl

/-- The junction of the two simplified halves: the last point of the first
half is the first point of the second. -/
theorem keeps_junction (P Q1 Q2 : List (Point α)) (idx : Nat)
    (h2 : idx + 1 < P.length) (k1 : Keeps (P.take (idx + 1)) Q1)
    (k2 : Keeps (P.drop idx) Q2) :
    Q1.getD (Q1.length - 1) 0 = P.getD idx 0 ∧ Q2.getD 0 0 = P.getD idx 0 := by
  have hl1 : (P.take (idx + 1)).length = idx + 1 := by
    rw [List.length_take]; omega
  constructor
  · rw [k1.last, hl1, getD_take_lt _ _ _ _ (by omega)]
    rfl
  · rw [k2.first, getD_drop_add]
    rfl

/-- The search loop run on the joined output of a split finds the junction
again, with the same maximum. -/
theorem findMax_join (sqrt : α → α) (P Q1 Q2 : List (Point α)) (ε : α) (hε : 0 ≤ ε)
    (hd : (findMax sqrt P).1 > ε)
    (k1 : Keeps (P.take ((findMax sqrt P).2 + 1)) Q1)
    (k2 : Keeps (P.drop (findMax sqrt P).2) Q2) :
    findMax sqrt (Q1.dropLast ++ Q2) = ((findMax sqrt P).1, Q1.length - 1) := by
  obtain ⟨b1, b2⟩ := findMax_index_bounds sqrt P ε hε hd
  have kq := keeps_join P Q1 Q2 _ b1 b2 k1 k2
  obtain ⟨j1, j2⟩ := keeps_junction P Q1 Q2 _ b2 k1 k2
  have hq1 := k1.two_le
  have hq2 := k2.two_le
  have hdl : Q1.dropLast.length = Q1.length - 1 := List.length_dropLast _
  have hlen : (Q1.dropLast ++ Q2).length = Q1.length - 1 + Q2.length := by
    rw [List.length_append, List.length_dropLast]
  have hl1 : (P.take ((findMax sqrt P).2 + 1)).length = (findMax sqrt P).2 + 1 := by
    rw [List.length_take]; omega
  -- the distances of the points of the joined list are distances of points of `P`
  have hcd : ∀ i k, (Q1.dropLast ++ Q2).getD i 0 = P.getD k 0 →
      chordDist sqrt (Q1.dropLast ++ Q2) i = chordDist sqrt P k := by
    intro i k hik
    unfold chordDist
    rw [hik, kq.first, kq.last]
  have hjun : (Q1.dropLast ++ Q2).getD (Q1.length - 1) 0 = P.getD (findMax sqrt P).2 0 := by
    rw [List.getD_append_right _ _ _ _ (by omega), hdl, Nat.sub_self, j2]
  -- what the loop established on `P`
  have hspec := maxLoop_spec (chordDist sqrt P) (P.length - 1)
  rw [← findMax_eq] at hspec
  obtain ⟨s1, -, s3⟩ := hspec
  have hpos : 0 < (findMax sqrt P).1 := lt_of_le_of_lt hε hd
  rcases s3 with s3 | ⟨-, -, c, -, f⟩
  · rw [s3] at hpos
    exact absurd hpos (lt_irrefl _)
  · have hj : chordDist sqrt (Q1.dropLast ++ Q2) (Q1.length - 1) = (findMax sqrt P).1 := by
      rw [hcd _ _ hjun, c]
    rw [findMax_eq, ← hj]
    apply maxLoop_eq
    · omega
    · omega
    · rw [hj]; exact hpos
    · intro i hi1 hi2
      obtain ⟨k, hk1, hk2, hk3⟩ := kq.interior i hi1 (by omega)
      rw [hcd _ _ hk3, hj]
      exact s1 k hk1 (by omega)
    · intro i hi1 hi2
      obtain ⟨k, hk1, hk2, hk3⟩ := k1.interior i hi1 (by omega)
      have : (Q1.dropLast ++ Q2).getD i 0 = P.getD k 0 := by
        rw [List.getD_append _ _ _ _ (by omega), getD_dropLast_lt _ _ _ (by omega), hk3,
          getD_take_lt _ _ _ _ (by omega)]
      rw [hcd _ _ this, hj]
      exact f k hk1 (by omega)

/-- Simplifying an output of the simplifier again returns it unchanged. -/
theorem rdp_idem (sqrt : α → α) (ε : α) (hε : 0 ≤ ε) : ∀ (n : Nat) (P Q : List (Point α)),
    P ≠ [] → ramerDouglasPeucker sqrt n P ε = .ok Q →
    ∀ m, Q.length ≤ m → ramerDouglasPeucker sqrt m Q ε = .ok Q := by
  intro n
  induction n with
  | zero =>
    intro P Q _ h
    simp [ramerDouglasPeucker] at h
  | succ n ih =>
    intro P Q hP h m hm
    rcases rdp_ok_cases sqrt n P Q ε hP h with ⟨-, hQ⟩ | ⟨hd, Q1, Q2, r1, r2, hQ, hQ2⟩
    · subst hQ
      cases m with
      | zero => simp at hm
      | succ m =>
        simp [ramerDouglasPeucker, findMax, maxLoop, not_lt.mpr hε]
    · obtain ⟨b1, b2⟩ := findMax_index_bounds sqrt P ε hε hd
      have ne1 : P.take ((findMax sqrt P).2 + 1) ≠ [] := by
        intro h0
        have := congrArg List.length h0
        simp only [List.length_take, List.length_nil] at this
        omega
      have ne2 : P.drop (findMax sqrt P).2 ≠ [] := by
        intro h0
        have := congrArg List.length h0
        simp only [List.length_drop, List.length_nil] at this
        omega
      have k1 := rdp_keeps sqrt ε hε _ _ _ ne1 r1
      have k2 := rdp_keeps sqrt ε hε _ _ _ ne2 r2
      have hq1 := k1.two_le
      have hq2 := k2.two_le
      obtain ⟨j1, j2⟩ := keeps_junction P Q1 Q2 _ b2 k1 k2
      obtain ⟨t1, t2⟩ := join_take_drop (0 : Point α) Q1 Q2 (by omega) (by omega)
        (j1.trans j2.symm)
      have hfm := findMax_join sqrt P Q1 Q2 ε hε hd k1 k2
      subst hQ
      have hlen : (Q1.dropLast ++ Q2).length = Q1.length - 1 + Q2.length := by
        rw [List.length_append, List.length_dropLast]
      cases m with
      | zero => omega
      | succ m =>
        have i1 := ih _ _ ne1 r1 m (by omega)
        have i2 := ih _ _ ne2 r2 m (by omega)
        have hlen0 : (Q1.dropLast ++ Q2).length ≠ 0 := by omega
        have hout : ¬ (Q1.dropLast ++ Q2).length < 2 := by omega
        rw [ramerDouglasPeucker]
        simp only [hlen0, if_false, hfm, hd, if_true, t1, t2, i1, i2, hout]

theorem IsSqrt.zero {sqrt : α → α} (hs : IsSqrt sqrt) : sqrt 0 = 0 := by
  have := (hs 0 (le_refl _)).2
  exact mul_self_eq_zero.mp this

/-- The start of the chord has distance `0` from the chord. -/
theorem perpendicularDistance_start {sqrt : α → α} (hs : IsSqrt sqrt) (a b : Point α) :
    perpendicularDistance sqrt a a b = 0 := by
  simp [perpendicularDistance, hs.zero]

/-- The end of the chord has distance `0` from the chord. -/
theorem perpendicularDistance_end {sqrt : α → α} (hs : IsSqrt sqrt) (a b : Point α) :
    perpendicularDistance sqrt b a b = 0 := by
  have hnn : 0 ≤ (b.1 - a.1) ^ 2 + (b.2 - a.2) ^ 2 := by positivity
  obtain ⟨hm0, hmm⟩ := hs _ hnn
  unfold perpendicularDistance
  simp only
  by_cases hmag : sqrt ((b.1 - a.1) ^ 2 + (b.2 - a.2) ^ 2) > 0
  · simp only [hmag, if_true]
    have hne : sqrt ((b.1 - a.1) ^ 2 + (b.2 - a.2) ^ 2) ≠ 0 := ne_of_gt hmag
    generalize sqrt ((b.1 - a.1) ^ 2 + (b.2 - a.2) ^ 2) = m at hmm hne
    have e1 : b.1 - a.1 - ((b.1 - a.1) / m * (b.1 - a.1) + (b.2 - a.2) / m * (b.2 - a.2))
        * ((b.1 - a.1) / m) = 0 := by
      field_simp
      rw [hmm]
      ring
    have e2 : b.2 - a.2 - ((b.1 - a.1) / m * (b.1 - a.1) + (b.2 - a.2) / m * (b.2 - a.2))
        * ((b.2 - a.2) / m) = 0 := by
      field_simp
      rw [hmm]
      ring
    rw [e1, e2]
    simp [hs.zero]
  · simp only [hmag, if_false]
    have hz : sqrt ((b.1 - a.1) ^ 2 + (b.2 - a.2) ^ 2) = 0 := le_antisymm (not_lt.mp hmag) hm0
    rw [hz, mul_zero] at hmm
    have hx : (b.1 - a.1) ^ 2 = 0 := by
      have h1 : 0 ≤ (b.1 - a.1) ^ 2 := by positivity
      have h2 : 0 ≤ (b.2 - a.2) ^ 2 := by positivity
      linarith
    have hy : (b.2 - a.2) ^ 2 = 0 := by
      have h1 : 0 ≤ (b.1 - a.1) ^ 2 := by positivity
      linarith
    have hx0 : b.1 - a.1 = 0 := pow_eq_zero_iff (two_ne_zero) |>.mp hx
    have hy0 : b.2 - a.2 = 0 := pow_eq_zero_iff (two_ne_zero) |>.mp hy
    simp [hx0, hy0, hs.zero]

/-- Every point of the input lies within `epsilon` of a segment of the
output. -/
theorem rdp_approx {sqrt : α → α} (hs : IsSqrt sqrt) (ε : α) (hε : 0 ≤ ε) :
    ∀ (n : Nat) (P Q : List (Point α)), P ≠ [] → ramerDouglasPeucker sqrt n P ε = .ok Q →
    ∀ p ∈ P, ∃ a b s t, Q = s ++ a :: b :: t ∧ perpendicularDistance sqrt p a b ≤ ε := by
  intro n
  induction n with
  | zero =>
    intro P Q _ h
    simp [ramerDouglasPeucker] at h
  | succ n ih =>
    intro P Q hP h p hp
    have hPl : 1 ≤ P.length := List.length_pos.mpr hP
    rcases rdp_ok_cases sqrt n P Q ε hP h with ⟨hd, hQ⟩ | ⟨hd, Q1, Q2, r1, r2, hQ, -⟩
    · subst hQ
      refine ⟨_, _, [], [], rfl, ?_⟩
      obtain ⟨i, hi, rfl⟩ := List.getElem_of_mem hp
      rw [← List.getD_eq_getElem P 0 hi]
      by_cases hi0 : i = 0
      · subst hi0
        rw [perpendicularDistance_start hs]
        exact hε
      by_cases hie : i = P.length - 1
      · subst hie
        rw [perpendicularDistance_end hs]
        exact hε
      · obtain ⟨s1, -, -⟩ := maxLoop_spec (chordDist sqrt P) (P.length - 1)
        rw [← findMax_eq] at s1
        exact le_trans (s1 i (by omega) (by omega)) (not_lt.mp hd)
    · obtain ⟨b1, b2⟩ := findMax_index_bounds sqrt P ε hε hd
      have ne1 : P.take ((findMax sqrt P).2 + 1) ≠ [] := by
        intro h0
        have := congrArg List.length h0
        simp only [List.length_take, List.length_nil] at this
        omega
      have ne2 : P.drop (findMax sqrt P).2 ≠ [] := by
        intro h0
        have := congrArg List.length h0
        simp only [List.length_drop, List.length_nil] at this
        omega
      have k1 := rdp_keeps sqrt ε hε _ _ _ ne1 r1
      have k2 := rdp_keeps sqrt ε hε _ _ _ ne2 r2
      have hq1 := k1.two_le
      have hq2 := k2.two_le
      obtain ⟨j1, j2⟩ := keeps_junction P Q1 Q2 _ b2 k1 k2
      have hQ1 : Q1.dropLast ++ [Q2.getD 0 0] = Q1 := by
        rw [← j1.trans j2.symm]
        exact dropLast_append_last Q1 0 (by omega)
      have hQ2 : Q2.getD 0 0 :: Q2.tail = Q2 := head_cons_tail Q2 0 (by omega)
      have hmem : p ∈ P.take ((findMax sqrt P).2 + 1) ∨ p ∈ P.drop (findMax sqrt P).2 := by
        rw [← List.take_append_drop ((findMax sqrt P).2 + 1) P] at hp
        rcases List.mem_append.mp hp with h' | h'
        · left; exact h'
        · right
          rw [← List.drop_drop 1 (findMax sqrt P).2 P] at h'
          exact List.mem_of_mem_drop h'
      subst hQ
      rcases hmem with hm | hm
      · obtain ⟨a, b, s, t, e, hle⟩ := ih _ _ ne1 r1 p hm
        refine ⟨a, b, s, t ++ Q2.tail, ?_, hle⟩
        rw [← hQ2, ← List.singleton_append, ← List.append_assoc, hQ1, e]
        simp
      · obtain ⟨a, b, s, t, e, hle⟩ := ih _ _ ne2 r2 p hm
        refine ⟨a, b, Q1.dropLast ++ s, t, ?_, hle⟩
        rw [e]
        simp

/-- With a non-negative `epsilon` no call throws, whatever the fuel. -/
theorem rdp_never_throws (sqrt : α → α) (ε : α) (hε : 0 ≤ ε) :
    ∀ (n : Nat) (P : List (Point α)) (what : String),
    ramerDouglasPeucker sqrt n P ε ≠ .runtimeError what := by
  intro n
  induction n with
  | zero =>
    intro P what h
    simp [ramerDouglasPeucker] at h
  | succ n ih =>
    intro P what h
    by_cases hlen : P.length = 0
    · simp [ramerDouglasPeucker, hlen] at h
    · by_cases hd : (findMax sqrt P).1 > ε
      · obtain ⟨b1, b2⟩ := findMax_index_bounds sqrt P ε hε hd
        have ne1 : P.take ((findMax sqrt P).2 + 1) ≠ [] := by
          intro h0
          have := congrArg List.length h0
          simp only [List.length_take, List.length_nil] at this
          omega
        have ne2 : P.drop (findMax sqrt P).2 ≠ [] := by
          intro h0
          have := congrArg List.length h0
          simp only [List.length_drop, List.length_nil] at this
          omega
        simp only [ramerDouglasPeucker, hlen, if_false, hd, if_true] at h
        split at h
        · rename_i Q1 r1
          split at h
          · rename_i Q2 r2
            have k2 := rdp_keeps sqrt ε hε _ _ _ ne2 r2
            have hout : ¬ Q1.length - 1 + Q2.length < 2 := by
              have := k2.two_le
              omega
            simp only [List.length_append, List.length_dropLast, hout, if_false] at h
            cases h
          · rename_i w r2
            exact ih _ _ r2
          · cases h
          · cases h
        · rename_i w r1
          exact ih _ _ r1
        · cases h
        · cases h
      · simp [ramerDouglasPeucker, hlen, hd] at h

theorem head?_eq_getD {β : Type} (l : List β) (d : β) (h : 1 ≤ l.length) :
    l.head? = some (l.getD 0 d) := by
  cases l with
  | nil => simp at h
  | cons a t => simp

theorem getLast?_eq_getD {β : Type} (l : List β) (d : β) (h : 1 ≤ l.length) :
    l.getLast? = some (l.getD (l.length - 1) d) := by
  have hne : l ≠ [] := by
    intro h0; subst h0; simp at h
  rw [List.getLast?_eq_getLast _ hne, List.getLast_eq_getElem,
    List.getD_eq_getElem l d (by omega)]

/-- The simplifier on a single point returns that point twice. -/
theorem rdp_singleton (sqrt : α → α) (n : Nat) (p : Point α) (ε : α) (hε : 0 ≤ ε) :
    ramerDouglasPeucker sqrt (n + 1) [p] ε = .ok [p, p] := by
  simp [ramerDouglasPeucker, findMax, maxLoop, not_lt.mpr hε]

/-- C1. For every point sequence with at least 2 points and every
`epsilon > 0`, `ramerDouglasPeucker` returns normally once the fuel covers the
number of points, the "Problem assembling output" runtime error is raised for
no amount of fuel, and the output has at least 2 points, the first and the
last being the first and last point of the input. -/
theorem ramerDouglasPeucker_returns_endpoints (sqrt : α → α) (P : List (Point α)) (ε : α)
    (fuel : Nat) (hP : 2 ≤ P.length) (hε : 0 < ε) (hfuel : P.length ≤ fuel) :
    (∀ n what, ramerDouglasPeucker sqrt n P ε ≠ .runtimeError what) ∧
    ∃ Q, ramerDouglasPeucker sqrt fuel P ε = .ok Q ∧ 2 ≤ Q.length ∧
      Q.head? = P.head? ∧ Q.getLast? = P.getLast? := by
  have hne : P ≠ [] := by
    intro h0; subst h0; simp at hP
  obtain ⟨Q, hQ⟩ := rdp_total sqrt ε (le_of_lt hε) fuel P hne hfuel
  have k := rdp_keeps sqrt ε (le_of_lt hε) fuel P Q hne hQ
  have := k.two_le
  refine ⟨fun n what => rdp_never_throws sqrt ε (le_of_lt hε) n P what, Q, hQ, k.two_le, ?_, ?_⟩
  · rw [head?_eq_getD Q 0 (by omega), head?_eq_getD P 0 (by omega), k.first]
  · rw [getLast?_eq_getD Q 0 (by omega), getLast?_eq_getD P 0 (by omega), k.last]

/-- Witness of C1 on the triangle `(0,0), (1,1), (2,0)` with `epsilon = 0.1`
over the real numbers. -/
theorem ramerDouglasPeucker_returns_endpoints_witness :
    2 ≤ ([(0, 0), (1, 1), (2, 0)] : List (Point ℝ)).length ∧ (0 : ℝ) < 1 / 10 ∧
    (∀ n what, ramerDouglasPeucker Real.sqrt n [((0 : ℝ), (0 : ℝ)), (1, 1), (2, 0)] (1 / 10)
      ≠ .runtimeError what) ∧
    ∃ Q, ramerDouglasPeucker Real.sqrt 3 [(0, 0), (1, 1), (2, 0)] (1 / 10) = .ok Q ∧
      2 ≤ Q.length ∧ Q.head? = ([(0, 0), (1, 1), (2, 0)] : List (Point ℝ)).head? ∧
      Q.getLast? = ([(0, 0), (1, 1), (2, 0)] : List (Point ℝ)).getLast? :=
  ⟨by simp, by norm_num,
    ramerDouglasPeucker_returns_endpoints Real.sqrt _ _ 3 (by simp) (by norm_num) (by simp)⟩

/-- C2, counterexample. On the one-point sequence `[(0,0)]` with
`epsilon = 0` the output has 2 points, more than the input. -/
theorem ramerDouglasPeucker_single_point_grows :
    ramerDouglasPeucker Real.sqrt 1 [((0 : ℝ), (0 : ℝ))] 0 = .ok [(0, 0), (0, 0)] ∧
    ¬ ([(0, 0), (0, 0)] : List (Point ℝ)).length ≤ ([(0, 0)] : List (Point ℝ)).length := by
  refine ⟨rdp_singleton Real.sqrt 0 _ 0 (le_refl _), by simp⟩

/-- C2, amended. For every point sequence with at least 2 points and every
`epsilon ≥ 0` the call returns normally and its output has no more points
than the input. -/
theorem ramerDouglasPeucker_length_le (sqrt : α → α) (P : List (Point α)) (ε : α)
    (fuel : Nat) (hP : 2 ≤ P.length) (hε : 0 ≤ ε) (hfuel : P.length ≤ fuel) :
    ∃ Q, ramerDouglasPeucker sqrt fuel P ε = .ok Q ∧ Q.length ≤ P.length := by
  have hne : P ≠ [] := by
    intro h0; subst h0; simp at hP
  obtain ⟨Q, hQ⟩ := rdp_total sqrt ε hε fuel P hne hfuel
  exact ⟨Q, hQ, (rdp_keeps sqrt ε hε fuel P Q hne hQ).len hP⟩

/-- Witness of the amended C2 on the two-point sequence `(0,0), (1,0)` with
`epsilon = 0`. -/
theorem ramerDouglasPeucker_length_le_witness :
    2 ≤ ([(0, 0), (1, 0)] : List (Point ℝ)).length ∧ (0 : ℝ) ≤ 0 ∧
    ∃ Q, ramerDouglasPeucker Real.sqrt 2 [(0, 0), (1, 0)] 0 = .ok Q ∧
      Q.length ≤ ([(0, 0), (1, 0)] : List (Point ℝ)).length :=
  ⟨by simp, le_refl _,
    ramerDouglasPeucker_length_le Real.sqrt _ _ 2 (by simp) (le_refl _) (by simp)⟩

/-- C3. `ramerDouglasPeucker` is idempotent: for every non-empty point
sequence and every `epsilon ≥ 0` the call returns an output `Q`, and
simplifying `Q` again with the same `epsilon` returns exactly `Q`. -/
theorem ramerDouglasPeucker_idempotent (sqrt : α → α) (P : List (Point α)) (ε : α)
    (fuel : Nat) (hP : P ≠ []) (hε : 0 ≤ ε) (hfuel : P.length ≤ fuel) :
    ∃ Q, ramerDouglasPeucker sqrt fuel P ε = .ok Q ∧
      ∀ fuel', Q.length ≤ fuel' → ramerDouglasPeucker sqrt fuel' Q ε = .ok Q := by
  obtain ⟨Q, hQ⟩ := rdp_total sqrt ε hε fuel P hP hfuel
  exact ⟨Q, hQ, rdp_idem sqrt ε hε fuel P Q hP hQ⟩

/-- Witness of C3 on the triangle `(0,0), (1,1), (2,0)` with `epsilon = 0.1`. -/
theorem ramerDouglasPeucker_idempotent_witness :
    ([(0, 0), (1, 1), (2, 0)] : List (Point ℝ)) ≠ [] ∧ (0 : ℝ) ≤ 1 / 10 ∧
    ∃ Q, ramerDouglasPeucker Real.sqrt 3 [(0, 0), (1, 1), (2, 0)] (1 / 10) = .ok Q ∧
      ∀ fuel', Q.length ≤ fuel' → ramerDouglasPeucker Real.sqrt fuel' Q (1 / 10) = .ok Q :=
  ⟨by simp, by norm_num,
    ramerDouglasPeucker_idempotent Real.sqrt _ _ 3 (by simp) (by norm_num) (by simp)⟩

/-- The real square root is an exact square root. -/
theorem isSqrt_real : IsSqrt Real.sqrt :=
  fun x hx => ⟨Real.sqrt_nonneg x, Real.mul_self_sqrt hx⟩

/-- C9. With an exact square root, for every point sequence `P` with at least
2 points and every `epsilon ≥ 0` the output `Q` approximates `P` within
`epsilon`: every point of `P` has perpendicular distance at most `epsilon`
from the line through two consecutive vertices of `Q`. -/
theorem ramerDouglasPeucker_within_epsilon (sqrt : α → α) (P : List (Point α)) (ε : α)
    (fuel : Nat) (hs : IsSqrt sqrt) (hP : 2 ≤ P.length) (hε : 0 ≤ ε)
    (hfuel : P.length ≤ fuel) :
    ∃ Q, ramerDouglasPeucker sqrt fuel P ε = .ok Q ∧
      ∀ p ∈ P, ∃ j a b, Q[j]? = some a ∧ Q[j + 1]? = some b ∧
        perpendicularDistance sqrt p a b ≤ ε := by
  have hne : P ≠ [] := by
    intro h0; subst h0; simp at hP
  obtain ⟨Q, hQ⟩ := rdp_total sqrt ε hε fuel P hne hfuel
  refine ⟨Q, hQ, ?_⟩
  intro p hp
  obtain ⟨a, b, s, t, e, hle⟩ := rdp_approx hs ε hε fuel P Q hne hQ p hp
  refine ⟨s.length, a, b, ?_, ?_, hle⟩
  · rw [e, List.getElem?_append_right (le_refl _)]
    simp
  · rw [e, List.getElem?_append_right (Nat.le_succ _)]
    simp

/-- Witness of C9 on the triangle `(0,0), (1,1), (2,0)` with `epsilon = 0.1`
and the real square root. -/
theorem ramerDouglasPeucker_within_epsilon_witness :
    IsSqrt Real.sqrt ∧ 2 ≤ ([(0, 0), (1, 1), (2, 0)] : List (Point ℝ)).length ∧
    (0 : ℝ) ≤ 1 / 10 ∧
    ∃ Q, ramerDouglasPeucker Real.sqrt 3 [(0, 0), (1, 1), (2, 0)] (1 / 10) = .ok Q ∧
      ∀ p ∈ ([(0, 0), (1, 1), (2, 0)] : List (Point ℝ)), ∃ j a b, Q[j]? = some a ∧
        Q[j + 1]? = some b ∧ perpendicularDistance Real.sqrt p a b ≤ 1 / 10 :=
  ⟨isSqrt_real, by simp, by norm_num,
    ramerDouglasPeucker_within_epsilon Real.sqrt _ _ 3 isSqrt_real (by simp) (by norm_num)
      (by simp)⟩

/-- C10. For every non-empty point sequence and every `epsilon ≥ 0` the
recursion terminates (fuel equal to the number of points is enough for a
normal return), because whenever the call recurses (`dmax > epsilon`) the
split index satisfies `1 ≤ index ≤ size - 2`, so both sub-sequences have at
least 2 points and are strictly shorter than the input. -/
theorem ramerDouglasPeucker_split_shrinks (sqrt : α → α) (P : List (Point α)) (ε : α)
    (hP : P ≠ []) (hε : 0 ≤ ε) :
    (∀ fuel, P.length ≤ fuel → ∃ Q, ramerDouglasPeucker sqrt fuel P ε = .ok Q) ∧
    ((findMax sqrt P).1 > ε →
      1 ≤ (findMax sqrt P).2 ∧ (findMax sqrt P).2 ≤ P.length - 2 ∧ 3 ≤ P.length ∧
      2 ≤ (P.take ((findMax sqrt P).2 + 1)).length ∧
      (P.take ((findMax sqrt P).2 + 1)).length < P.length ∧
      2 ≤ (P.drop (findMax sqrt P).2).length ∧
      (P.drop (findMax sqrt P).2).length < P.length) := by
  refine ⟨fun fuel hfuel => rdp_total sqrt ε hε fuel P hP hfuel, ?_⟩
  intro hd
  obtain ⟨b1, b2⟩ := findMax_index_bounds sqrt P ε hε hd
  simp only [List.length_take, List.length_drop]
  omega

/-- The search loop on `(0,0), (0,1), (1,0)`: the middle point, at distance
`1` from the chord, is the maximum. -/
theorem findMax_example :
    findMax Real.sqrt [((0 : ℝ), (0 : ℝ)), (0, 1), (1, 0)] = (1, 1) := by
  simp [findMax, maxLoop, maxStep, perpendicularDistance, List.range']

/-- Witness of C10 on `(0,0), (0,1), (1,0)` with `epsilon = 0.1`: the call
recurses (`dmax = 1 > 0.1`) and splits at `index = 1`. -/
theorem ramerDouglasPeucker_split_shrinks_witness :
    ([(0, 0), (0, 1), (1, 0)] : List (Point ℝ)) ≠ [] ∧ (0 : ℝ) ≤ 1 / 10 ∧
    (findMax Real.sqrt [((0 : ℝ), (0 : ℝ)), (0, 1), (1, 0)]).1 > 1 / 10 ∧
    (∀ fuel, ([(0, 0), (0, 1), (1, 0)] : List (Point ℝ)).length ≤ fuel →
      ∃ Q, ramerDouglasPeucker Real.sqrt fuel [(0, 0), (0, 1), (1, 0)] (1 / 10) = .ok Q) ∧
    1 ≤ (findMax Real.sqrt [((0 : ℝ), (0 : ℝ)), (0, 1), (1, 0)]).2 ∧
    (findMax Real.sqrt [((0 : ℝ), (0 : ℝ)), (0, 1), (1, 0)]).2 ≤ 3 - 2 :=
  have hd : (findMax Real.sqrt [((0 : ℝ), (0 : ℝ)), (0, 1), (1, 0)]).1 > 1 / 10 := by
    rw [findMax_example]; norm_num
  have h := ramerDouglasPeucker_split_shrinks Real.sqrt [((0 : ℝ), (0 : ℝ)), (0, 1), (1, 0)]
    (1 / 10) (by simp) (by norm_num)
  ⟨by simp, by norm_num, hd, h.1, (h.2 hd).1, (h.2 hd).2.1⟩

/-- The summation loop of `calcMean` over the first `n` points. -/
theorem calcMean_loop (c : pointList α) : ∀ n, n ≤ c.length →
    (List.range n).foldl
      (fun (acc : α × α) i => (acc.1 + (c.getD i 0).1, acc.2 + (c.getD i 0).2)) (0, 0)
    = (((c.take n).map Prod.fst).sum, ((c.take n).map Prod.snd).sum) := by
  intro n
  induction n with
  | zero => intro _; simp
  | succ n ih =>
    intro hn
    rw [List.range_succ, List.foldl_append, ih (by omega)]
    have hlt : n < c.length := by omega
    have ht : c.take (n + 1) = c.take n ++ [c.getD n 0] := by
      rw [List.take_succ, List.getD_eq_getElem c 0 hlt, List.getElem?_eq_getElem hlt]
      rfl
    rw [ht]
    simp

/-- The integers up to 12 are `double` values. -/
theorem roundDouble_nat_small (n : Nat) (h : n ≤ 12) : roundDouble (n : ℚ) = .finite n := by
  interval_cases n <;> simp [roundDouble, floorLog2, roundNearestEven, Nat.log2] <;> norm_num

/-- The `double` nearest to `7 / 3` is `5254199565265579 / 2 ^ 51`, printed
`2.3333333333333335`. -/
theorem roundDouble_seven_thirds :
    roundDouble (7 / 3) = .finite (5254199565265579 / 2251799813685248) := by
  have h1 : ((7 : ℚ) / 3).num = 7 := by norm_num
  have h2 : ((7 : ℚ) / 3).den = 3 := by norm_num
  simp [roundDouble, floorLog2, roundNearestEven, Nat.log2, h1, h2]
  norm_num

/-- The `double` nearest to `11 / 3` is `8256599316845909 / 2 ^ 51`, printed
`3.6666666666666665`. -/
theorem roundDouble_eleven_thirds :
    roundDouble (11 / 3) = .finite (8256599316845909 / 2251799813685248) := by
  have h1 : ((11 : ℚ) / 3).num = 11 := by norm_num
  have h2 : ((11 : ℚ) / 3).den = 3 := by norm_num
  simp [roundDouble, floorLog2, roundNearestEven, Nat.log2, h1, h2]
  norm_num

/-- The summation loop of `calcMean` in `double` arithmetic over the first `n`
points, when every partial sum is a `double`. -/
theorem calcMeanDouble_loop (c : List (ℚ × ℚ))
    (hx : ∀ k, k ≤ c.length → IsDouble ((c.take k).map Prod.fst).sum)
    (hy : ∀ k, k ≤ c.length → IsDouble ((c.take k).map Prod.snd).sum) :
    ∀ n, n ≤ c.length →
    (List.range n).foldl
      (fun (acc : Double × Double) i =>
        (acc.1.add ((finitePoints c).getD i (.finite 0, .finite 0)).1,
          acc.2.add ((finitePoints c).getD i (.finite 0, .finite 0)).2))
      (.finite 0, .finite 0)
    = (.finite ((c.take n).map Prod.fst).sum, .finite ((c.take n).map Prod.snd).sum) := by
  intro n
  induction n with
  | zero => intro _; simp
  | succ n ih =>
    intro hn
    rw [List.range_succ, List.foldl_append, ih (by omega)]
    have hlt : n < c.length := by omega
    have ht : c.take (n + 1) = c.take n ++ [c.getD n 0] := by
      rw [List.take_succ, List.getD_eq_getElem c 0 hlt, List.getElem?_eq_getElem hlt]
      rfl
    have hg : (finitePoints c).getD n (.finite 0, .finite 0)
        = (.finite (c.getD n 0).1, .finite (c.getD n 0).2) := by
      have hlt' : n < (finitePoints c).length := by simpa [finitePoints] using hlt
      rw [List.getD_eq_getElem _ _ hlt', List.getD_eq_getElem c 0 hlt]
      simp [finitePoints]
    have sx := hx (n + 1) hn
    have sy := hy (n + 1) hn
    rw [ht] at sx sy ⊢
    simp only [List.map_append, List.sum_append, List.map_cons, List.map_nil, List.sum_cons,
      List.sum_nil, add_zero] at sx sy ⊢
    simp only [List.foldl_cons, List.foldl_nil, hg, Double.add]
    rw [sx, sy]

/-- C4, amended. For every non-empty cluster `c` of finite points for which
every partial sum of the x and of the y coordinates, the number of points and
the two quotients (sum of x) / n and (sum of y) / n are `double` values,
`calcMean` sets the centroid to exactly (sum of x / n, sum of y / n), the
per-axis arithmetic average. -/
theorem calcMean_exact_when_representable (c : List (ℚ × ℚ)) (hc : c ≠ [])
    (hx : ∀ k, k ≤ c.length → IsDouble ((c.take k).map Prod.fst).sum)
    (hy : ∀ k, k ≤ c.length → IsDouble ((c.take k).map Prod.snd).sum)
    (hn : IsDouble (c.length : ℚ))
    (hqx : IsDouble ((c.map Prod.fst).sum / (c.length : ℚ)))
    (hqy : IsDouble ((c.map Prod.snd).sum / (c.length : ℚ))) :
    calcMeanDouble (finitePoints c) =
      (.finite ((c.map Prod.fst).sum / (c.length : ℚ)),
        .finite ((c.map Prod.snd).sum / (c.length : ℚ))) := by
  have hlen : (c.length : ℚ) ≠ 0 := by
    have : c.length ≠ 0 := fun h0 => hc (List.length_eq_zero.mp h0)
    exact_mod_cast this
  have hfl : (finitePoints c).length = c.length := by simp [finitePoints]
  unfold calcMeanDouble
  simp only [hfl]
  rw [calcMeanDouble_loop c hx hy c.length (le_refl _), List.take_length]
  unfold IsDouble at hn hqx hqy
  simp only [Double.divSize, hn, hlen, if_false, hqx, hqy]

/-- C4, counterexample. On the cluster `(1,2), (2,4), (4,5)` the centroid
that `calcMean` stores is `(2.3333333333333335, 3.6666666666666665)`, the
`double` values nearest to `7 / 3` and `11 / 3`, not the exact average
`(7 / 3, 11 / 3)`. -/
theorem calcMean_rounds :
    calcMeanDouble [(.finite 1, .finite 2), (.finite 2, .finite 4), (.finite 4, .finite 5)]
      = (.finite (5254199565265579 / 2251799813685248),
          .finite (8256599316845909 / 2251799813685248)) ∧
    (5254199565265579 / 2251799813685248 : ℚ) ≠ (1 + 2 + 4) / 3 ∧
    (8256599316845909 / 2251799813685248 : ℚ) ≠ (2 + 4 + 5) / 3 := by
  have r := fun n h => roundDouble_nat_small n h
  have r1 := r 1 (by norm_num)
  have r2 := r 2 (by norm_num)
  have r3 := r 3 (by norm_num)
  have r6 := r 6 (by norm_num)
  have r7 := r 7 (by norm_num)
  have r11 := r 11 (by norm_num)
  simp only [Nat.cast_ofNat, Nat.cast_one] at r1 r2 r3 r6 r7 r11
  refine ⟨?_, by norm_num, by norm_num⟩
  simp only [calcMeanDouble, List.length_cons, List.length_nil, List.range_succ, List.range_zero,
    List.nil_append, List.cons_append, List.foldl_cons, List.foldl_nil, List.getD_cons_zero,
    List.getD_cons_succ, Double.add, Double.divSize]
  norm_num [r1, r2, r3, r6, r7, r11, roundDouble_seven_thirds, roundDouble_eleven_thirds]

/-- Witness of the amended C4: on the cluster `(0,0), (2,0), (0,2), (2,2)`
every intermediate value is a `double` and the centroid is `(1, 1)`. -/
theorem calcMean_exact_when_representable_witness :
    ([(0, 0), (2, 0), (0, 2), (2, 2)] : List (ℚ × ℚ)) ≠ [] ∧
    (∀ k, k ≤ ([(0, 0), (2, 0), (0, 2), (2, 2)] : List (ℚ × ℚ)).length →
      IsDouble ((([(0, 0), (2, 0), (0, 2), (2, 2)] : List (ℚ × ℚ)).take k).map Prod.fst).sum) ∧
    (∀ k, k ≤ ([(0, 0), (2, 0), (0, 2), (2, 2)] : List (ℚ × ℚ)).length →
      IsDouble ((([(0, 0), (2, 0), (0, 2), (2, 2)] : List (ℚ × ℚ)).take k).map Prod.snd).sum) ∧
    IsDouble ((([(0, 0), (2, 0), (0, 2), (2, 2)] : List (ℚ × ℚ)).length : ℕ) : ℚ) ∧
    calcMeanDouble (finitePoints [(0, 0), (2, 0), (0, 2), (2, 2)]) = (.finite 1, .finite 1) := by
  have r := fun n h => roundDouble_nat_small n h
  have r0 : IsDouble 0 := by simpa [IsDouble] using r 0 (by norm_num)
  have r1 : IsDouble 1 := by simpa [IsDouble] using r 1 (by norm_num)
  have r2 : IsDouble 2 := by simpa [IsDouble] using r 2 (by norm_num)
  have r4 : IsDouble 4 := by simpa [IsDouble] using r 4 (by norm_num)
  have hx : ∀ k, k ≤ ([(0, 0), (2, 0), (0, 2), (2, 2)] : List (ℚ × ℚ)).length →
      IsDouble ((([(0, 0), (2, 0), (0, 2), (2, 2)] : List (ℚ × ℚ)).take k).map Prod.fst).sum := by
    intro k hk
    simp only [List.length_cons, List.length_nil] at hk
    interval_cases k <;> norm_num <;> assumption
  have hy : ∀ k, k ≤ ([(0, 0), (2, 0), (0, 2), (2, 2)] : List (ℚ × ℚ)).length →
      IsDouble ((([(0, 0), (2, 0), (0, 2), (2, 2)] : List (ℚ × ℚ)).take k).map Prod.snd).sum := by
    intro k hk
    simp only [List.length_cons, List.length_nil] at hk
    interval_cases k <;> norm_num <;> assumption
  have hn : IsDouble ((([(0, 0), (2, 0), (0, 2), (2, 2)] : List (ℚ × ℚ)).length : ℕ) : ℚ) := by
    norm_num; exact r4
  refine ⟨by simp, hx, hy, hn, ?_⟩
  rw [calcMean_exact_when_representable _ (by simp) hx hy hn (by norm_num; exact r1)
    (by norm_num; exact r1)]
  norm_num

/-- C5. The `moving` flag is monotonic: it is `true` right after construction,
and in every track state in which it is `false` the operations that mutate the
track leave it `false` (`update` with any cluster and `dt`, `calcMean`,
`calcRelativeVelocity`, and `getLineVisualisationMessage`, which returns at
once with the track unchanged); moreover no call of `update` changes the flag
and no call of `getLineVisualisationMessage` turns it from `false` to `true`. -/
theorem moving_monotonic {κ : Type} (K : KalmanOps α κ) (sqrt : α → α) (s : Cluster α κ)
    (hs : s.moving = false) :
    (∀ (raw : Cluster α κ) (id : Nat) (pts : pointList α) (dt : α),
      (Cluster.create K raw id pts dt).moving = true) ∧
    (∀ (pts : pointList α) (dt : α), (update K s pts dt).moving = false) ∧
    (∀ (pts : pointList α), (calcMean s pts).moving = false) ∧
    (calcRelativeVelocity s).moving = false ∧
    (∀ fuel, getLineVisualisationMessage sqrt fuel s = .ok (s, [])) ∧
    (∀ (t : Cluster α κ) (pts : pointList α) (dt : α), (update K t pts dt).moving = t.moving) ∧
    (∀ (t t' : Cluster α κ) (fuel : Nat) (out : List (Point α)),
      getLineVisualisationMessage sqrt fuel t = .ok (t', out) → t'.moving = true →
      t.moving = true) := by
  refine ⟨fun _ _ _ _ => rfl, fun _ _ => hs, fun _ => hs, hs, ?_, fun _ _ _ => rfl, ?_⟩
  · intro fuel
    simp [getLineVisualisationMessage, hs]
  · intro t t' fuel out h ht'
    unfold getLineVisualisationMessage at h
    by_cases hm : t.moving = true
    · exact hm
    · simp only [hm, Bool.not_false, if_true] at h
      simp at hm
      simp [hm] at h
      rw [← h.1] at ht'
      simp [hm] at ht'

/-- Witness of C5 on the stationary track `trackD`, whose last cluster has
five vertices. -/
theorem moving_monotonic_witness :
    (trackD ℝ).moving = false ∧
    (∀ (pts : pointList ℝ) (dt : ℝ), (update (noKalman ℝ) (trackD ℝ) pts dt).moving = false) ∧
    (∀ fuel, getLineVisualisationMessage Real.sqrt fuel (trackD ℝ) = .ok (trackD ℝ, [])) :=
  have h := moving_monotonic (noKalman ℝ) Real.sqrt (trackD ℝ) rfl
  ⟨rfl, h.2.1, h.2.2.2.2.1⟩

/-- C6, counterexample. The track `trackA` has centroid `(1, 1)` and raw
velocity `(1, 1)`. `update` with an empty observation returns a track whose
history has grown by the empty observation and whose `previous_mean_values`
is the old centroid `(1, 1)`; centroid and raw velocity are not all left
unchanged. -/
theorem update_empty_not_rejected :
    (trackA ℚ).mean_values = (1, 1) ∧ (trackA ℚ).vx = 1 ∧ (trackA ℚ).vy = 1 ∧
    (update (noKalman ℚ) (trackA ℚ) [] 1).clusters = [[(0, 0)], [(1, 1)], []] ∧
    (update (noKalman ℚ) (trackA ℚ) [] 1).previous_mean_values = (1, 1) ∧
    ¬ ((update (noKalman ℚ) (trackA ℚ) [] 1).mean_values = (trackA ℚ).mean_values ∧
      (update (noKalman ℚ) (trackA ℚ) [] 1).vx = (trackA ℚ).vx ∧
      (update (noKalman ℚ) (trackA ℚ) [] 1).vy = (trackA ℚ).vy) := by
  simp [update, calcMean, calcRelativeVelocity, trackA, Cluster.create, rawTrack, List.range_succ]

/-- C6, amended. `update` with an empty observation is not rejected: it
returns a new track state in which the empty observation is appended to the
history, `previous_mean_values` is the prior centroid, `dt` is the given
timestep, the raw velocity is recomputed from the recomputed centroid, and
the `moving` flag is unchanged. -/
theorem update_empty_state {κ : Type} (K : KalmanOps α κ) (s : Cluster α κ) (dt_in : α) :
    (update K s [] dt_in).clusters = s.clusters ++ [[]] ∧
    (update K s [] dt_in).previous_mean_values = s.mean_values ∧
    (update K s [] dt_in).dt = dt_in ∧
    (update K s [] dt_in).vx =
      ((update K s [] dt_in).mean_values.1 - s.mean_values.2) / dt_in ∧
    (update K s [] dt_in).vy =
      ((update K s [] dt_in).mean_values.1 - s.mean_values.2) / dt_in ∧
    (update K s [] dt_in).moving = s.moving ∧
    (update K s [] dt_in).id = s.id :=
  ⟨rfl, rfl, rfl, rfl, rfl, rfl, rfl⟩

/-- C7, failing input. The track `trackC` is moving and its most recent
cluster `[(0,0), (1,0)]` is simplified (epsilon 0.1) to the 2-vertex polyline
`[(0,0), (1,0)]` of length `1 > 0.8`; `getLineVisualisationMessage` returns
the track unchanged, still moving. -/
theorem getLineVisualisationMessage_long_segment_still_moving :
    (trackC ℝ).moving = true ∧
    ramerDouglasPeucker Real.sqrt 2 [((0 : ℝ), (0 : ℝ)), (1, 0)] (1 / 10)
      = .ok [(0, 0), (1, 0)] ∧
    Real.sqrt (((1 : ℝ) - 0) ^ 2 + ((0 : ℝ) - 0) ^ 2) > 8 / 10 ∧
    getLineVisualisationMessage Real.sqrt 2 (trackC ℝ)
      = .ok (trackC ℝ, [(0, 0), (1, 0)]) := by
  have hr : ramerDouglasPeucker Real.sqrt 2 [((0 : ℝ), (0 : ℝ)), (1, 0)] (1 / 10)
      = .ok [(0, 0), (1, 0)] := by
    simp [ramerDouglasPeucker, findMax, maxLoop]
  refine ⟨rfl, hr, by norm_num, ?_⟩
  simp only [getLineVisualisationMessage, trackC, Cluster.create, calcMean,
    List.getLast?_singleton, hr]
  simp [classify]

/-- For every polyline of exactly 2 vertices the classification leaves
`moving` as it was, whatever the length of the segment. -/
theorem classify_two_vertices (sqrt : α → α) (a b : Point α) (m : Bool) :
    classify sqrt [a, b] m = m := by
  simp [classify]

/-- C8, counterexample. On a track with previous centroid `(0, 1)`, `update`
with the cluster `[(0, 0)]` and `dt = 1` gives `vx = vy = -1`, while the
x-axis difference of the consecutive centroids over `dt` is `0`. -/
theorem update_velocity_not_x_difference :
    (update (noKalman ℚ) (trackB ℚ) [(0, 0)] 1).vx = -1 ∧
    (update (noKalman ℚ) (trackB ℚ) [(0, 0)] 1).vy = -1 ∧
    ((update (noKalman ℚ) (trackB ℚ) [(0, 0)] 1).mean_values.1
      - (trackB ℚ).mean_values.1) / 1 = 0 ∧
    (update (noKalman ℚ) (trackB ℚ) [(0, 0)] 1).vx ≠
      ((update (noKalman ℚ) (trackB ℚ) [(0, 0)] 1).mean_values.1
        - (trackB ℚ).mean_values.1) / 1 := by
  simp [update, calcMean, calcRelativeVelocity, trackB, Cluster.create, rawTrack, List.range_succ]

/-- C8, amended. For every track state and every `update(new_points, dt)`
with non-empty `new_points` and `dt > 0`, the new centroid is the per-axis
average of `new_points`, and `vx` and `vy` are both equal to (x of the new
centroid - y of the previous centroid) / dt. -/
theorem update_velocity {κ : Type} (K : KalmanOps α κ) (s : Cluster α κ)
    (new_points : pointList α) (dt_in : α) (hne : new_points ≠ []) (hdt : 0 < dt_in) :
    (update K s new_points dt_in).mean_values.1 * (new_points.length : α)
      = (new_points.map Prod.fst).sum ∧
    (update K s new_points dt_in).vx * dt_in
      = (update K s new_points dt_in).mean_values.1 - s.mean_values.2 ∧
    (update K s new_points dt_in).vx
      = ((update K s new_points dt_in).mean_values.1 - s.mean_values.2) / dt_in ∧
    (update K s new_points dt_in).vy
      = ((update K s new_points dt_in).mean_values.1 - s.mean_values.2) / dt_in := by
  have hlen : (new_points.length : α) ≠ 0 := by
    have : new_points.length ≠ 0 := fun h0 => hne (List.length_eq_zero.mp h0)
    exact_mod_cast this
  have hmean : (update K s new_points dt_in).mean_values
      = (calcMean s new_points).mean_values := rfl
  refine ⟨?_, ?_, rfl, rfl⟩
  · rw [hmean]
    unfold calcMean
    simp only
    rw [calcMean_loop new_points new_points.length (le_refl _), List.take_length]
    field_simp
  · show ((update K s new_points dt_in).mean_values.1 - s.mean_values.2) / dt_in * dt_in = _
    field_simp

/-- Witness of the amended C8: `update` of `trackB` (previous centroid
`(0, 1)`) with the cluster `(0,0), (2,0)` and `dt = 1`. -/
theorem update_velocity_witness :
    ([(0, 0), (2, 0)] : pointList ℚ) ≠ [] ∧ (0 : ℚ) < 1 ∧
    (update (noKalman ℚ) (trackB ℚ) [(0, 0), (2, 0)] 1).vx
      = ((update (noKalman ℚ) (trackB ℚ) [(0, 0), (2, 0)] 1).mean_values.1
        - (trackB ℚ).mean_values.2) / 1 ∧
    (update (noKalman ℚ) (trackB ℚ) [(0, 0), (2, 0)] 1).vy
      = ((update (noKalman ℚ) (trackB ℚ) [(0, 0), (2, 0)] 1).mean_values.1
        - (trackB ℚ).mean_values.2) / 1 :=
  ⟨by simp, by norm_num,
    (update_velocity (noKalman ℚ) (trackB ℚ) _ 1 (by simp) (by norm_num)).2.2⟩

end Proofs

end Datmo
